import Mathlib

/-!
# Verification of the `serve` static file server

A shallow embedding of `serve.go` (Alexendoo/serve): a static file server
overlaying multiple directory roots. Request paths are modelled as `List Char`
(Go strings are byte strings; the server only manipulates them with
`strings`/`path/filepath` functions, modelled here character-wise). The
filesystem is modelled as a record of the three capabilities the server
consumes: `stat`, `open` (success only), and raw directory enumeration.

Definitions follow the Go source function by function; behaviour of the Go
standard library functions the source calls (`strings.FieldsFunc`,
`strings.Contains`, `path/filepath.Join`/`Clean`, `io/ioutil.ReadDir`,
`html/template` escaping) is modelled from their documented semantics.
-/

/-! ## Go standard library: strings -/

/-- `strings.FieldsFunc` worker: walks the string accumulating the current
field (reversed) in `acc`; a separator character flushes a non-empty field.
Empty fields (runs of separators) are dropped, as documented. -/
def fieldsFuncAux (f : Char → Bool) : List Char → List Char → List (List Char)
  | acc, [] => if acc = [] then [] else [acc.reverse]
  | acc, c :: cs =>
    if f c then
      if acc = [] then fieldsFuncAux f [] cs
      else acc.reverse :: fieldsFuncAux f [] cs
    else fieldsFuncAux f (c :: acc) cs

/-- `strings.FieldsFunc(s, f)`: splits `s` at each run of characters
satisfying `f`, returning the list of non-empty fields between them. -/
def fieldsFunc (f : Char → Bool) (s : List Char) : List (List Char) :=
  fieldsFuncAux f [] s

/-- `strings.Contains(s, sub)`: `sub` occurs as a contiguous substring of
`s`. Checked by scanning every suffix for `sub` as a prefix. -/
def goContains : List Char → List Char → Bool
  | s, sub =>
    if sub.isPrefixOf s then true
    else
      match s with
      | [] => false
      | _ :: rest => goContains rest sub

/-! ## Request validator (`validRequest`, `isSlashRune`) -/

/-- `isSlashRune` from serve.go: a character is a path separator if it is a
forward or backward slash. -/
def isSlashRune (r : Char) : Bool := r = '/' || r = '\\'

/-- The body of `validRequest`'s loop: scan the fields, returning `false` as
soon as one equals `..`, and `true` when the scan completes. -/
def scanFields : List (List Char) → Bool
  | [] => true
  | field :: rest => if field = "..".data then false else scanFields rest

/-- `validRequest` from serve.go: accept immediately when the path does not
contain `..` as a substring; otherwise scan the slash-separated fields and
reject exactly when one equals `..`. -/
def validRequest (path : List Char) : Bool :=
  if !goContains path ("..".data) then true
  else scanFields (fieldsFunc isSlashRune path)

/-- The plain formulation of the validator, written from the specification's
words: unconditionally scan all slash-separated tokens for one equal to
`..`, with no substring fast path. Used to state the refinement claim. -/
def validRequestPlain (path : List Char) : Bool :=
  scanFields (fieldsFunc isSlashRune path)

/-! ## Go standard library: path/filepath

`filepath.Join` (called at serve.go:166, 167, 217) joins its elements with
the separator and cleans the result. Modelled for the Unix separator `/`.
`Clean` is modelled from its documented lexical rules: collapse repeated
separators, drop `.` elements, resolve an inner `..` against the preceding
non-`..` element, drop `..` elements at the start of a rooted path, and
return `.` for an empty result. -/

/-- The element-stack core of `filepath.Clean`: processes the path's
components left to right. `out` is the stack of kept components. -/
def cleanComponents (rooted : Bool) : List (List Char) → List (List Char) → List (List Char)
  | out, [] => out
  | out, c :: rest =>
    if c = ".".data then cleanComponents rooted out rest
    else if c = "..".data then
      if out = [] then
        if rooted then cleanComponents rooted [] rest
        else cleanComponents rooted ["..".data] rest
      else if out.getLast? = some ("..".data) then
        cleanComponents rooted (out ++ ["..".data]) rest
      else cleanComponents rooted out.dropLast rest
    else cleanComponents rooted (out ++ [c]) rest

/-- `filepath.Clean(path)` (Unix separator). -/
def clean (path : List Char) : List Char :=
  if path = [] then ".".data
  else
    let rooted := path.head? = some '/'
    let comps := fieldsFunc (fun c => c = '/') path
    let out := cleanComponents rooted [] comps
    let res := (if rooted then ['/'] else []) ++ List.intercalate ['/'] out
    if res = [] then ".".data else res

/-- `filepath.Join(a, b)`: empty leading elements are skipped, the remaining
elements are joined with `/` and the result is cleaned; all-empty input
gives the empty path. -/
def filepathJoin (a b : List Char) : List Char :=
  if a ≠ [] then clean (a ++ '/' :: b)
  else if b ≠ [] then clean b
  else []

/-! ## Filesystem model

The host capabilities the server consumes (spec §6): `stat`, `open`, and
raw directory enumeration. `stat` and `readdir` return `none` on error
(missing path, permission error, ...); `openOk` is whether `os.Open`
succeeds. `readdir` returns the directory's entries in the filesystem's own
(raw) enumeration order; sorting is applied by `ioutilReadDir` below. -/

/-- The result of a successful `os.Stat`, restricted to the fields the
server reads: `Name()` and `IsDir()`. -/
structure FileInfo where
  name : List Char
  isDir : Bool
deriving DecidableEq, Repr

/-- A filesystem snapshot: the three host capabilities consumed. -/
structure FS where
  stat : List Char → Option FileInfo
  openOk : List Char → Bool
  readdir : List Char → Option (List FileInfo)

/-- Lexicographic (bytewise, as Go compares strings) strict order on names. -/
def lexLt : List Char → List Char → Bool
  | [], [] => false
  | [], _ :: _ => true
  | _ :: _, [] => false
  | a :: as, b :: bs => if a < b then true else if a = b then lexLt as bs else false

/-- Insert one entry into a name-sorted list. -/
def insertByName (f : FileInfo) : List FileInfo → List FileInfo
  | [] => [f]
  | g :: gs => if lexLt g.name f.name then g :: insertByName f gs else f :: g :: gs

/-- Sort directory entries by filename. -/
def sortByName : List FileInfo → List FileInfo
  | [] => []
  | f :: fs => insertByName f (sortByName fs)

/-- `io/ioutil.ReadDir(dirname)` (called at serve.go:218): reads the
directory and returns its entries *sorted by filename*, or an error. -/
def ioutilReadDir (fsx : FS) (dirname : List Char) : Option (List FileInfo) :=
  (fsx.readdir dirname).map sortByName

/-! ## Overlay resolver (`tryFile`, `tryFiles`, `staticIndex`, `tryDirs`) -/

/-- `tryFile` from serve.go: a candidate path is served iff `os.Stat`
succeeds, the stat is not a directory, and `os.Open` succeeds. -/
def tryFile (fsx : FS) (filePath : List Char) : Bool :=
  match fsx.stat filePath with
  | none => false
  | some stat => if stat.isDir then false else fsx.openOk filePath

/-- `tryFiles` from serve.go: for each root in order, try the joined exact
path, then that path with an appended `index.html` segment; return the
first candidate that `tryFile` accepts (the path `http.ServeContent` is
invoked on), or `none`. -/
def tryFiles (fsx : FS) (dirs : List (List Char)) (urlPath : List Char) : Option (List Char) :=
  match dirs with
  | [] => none
  | dir :: rest =>
    let filePath := filepathJoin dir urlPath
    let indexPath := filepathJoin filePath ("index.html".data)
    if tryFile fsx filePath then some filePath
    else if tryFile fsx indexPath then some indexPath
    else tryFiles fsx rest urlPath

/-- `staticIndex` from serve.go: the configured fallback resource is served
iff both `os.Open` and `os.Stat` succeed on it. -/
def staticIndex (fsx : FS) (index : List Char) : Bool :=
  fsx.openOk index && (fsx.stat index).isSome

/-- Go struct `entry` from serve.go: one rendered listing entry. -/
structure entry where
  Name : List Char
  IsDir : Bool
deriving DecidableEq, Repr

/-- Go struct `dirList` from serve.go: the listing contributed by one root. -/
structure dirList where
  LocalPath : List Char
  RequestPath : List Char
  Entries : List entry
deriving DecidableEq, Repr

/-- The loop of `tryDirs` from serve.go: walks the roots in order carrying
the accumulated `dirLists` and the `found` flag. A root whose joined path
fails to enumerate is skipped (`continue`); a successful root appends one
`dirList` whose entries start with the synthetic `..` parent entry. -/
def tryDirsLoop (fsx : FS) (urlPath : List Char) :
    List (List Char) → List dirList → Bool → List dirList × Bool
  | [], dirLists, found => (dirLists, found)
  | dir :: rest, dirLists, found =>
    match ioutilReadDir fsx (filepathJoin dir urlPath) with
    | none => tryDirsLoop fsx urlPath rest dirLists found
    | some dirInfo =>
      tryDirsLoop fsx urlPath rest
        (dirLists ++ [{ LocalPath := dir, RequestPath := urlPath,
                        Entries := { Name := "..".data, IsDir := true } ::
                          dirInfo.map (fun file => { Name := file.name, IsDir := file.isDir }) }])
        true

/-- `tryDirs` from serve.go: run the loop; when `found`, the accumulated
listings are rendered (`200`, `text/html; charset=utf-8`), otherwise the
pass contributes nothing. -/
def tryDirs (fsx : FS) (dirs : List (List Char)) (urlPath : List Char) : Option (List dirList) :=
  match tryDirsLoop fsx urlPath dirs [] false with
  | (dirLists, true) => some dirLists
  | (_, false) => none

/-- The listing one root contributes for one request path, or `none` when
enumeration of the joined path fails. Spec-level description of the loop
body of `tryDirs`, used to characterise the accumulated result. -/
def listingOf (fsx : FS) (urlPath dir : List Char) : Option dirList :=
  (ioutilReadDir fsx (filepathJoin dir urlPath)).map fun dirInfo =>
    { LocalPath := dir, RequestPath := urlPath,
      Entries := { Name := "..".data, IsDir := true } ::
        dirInfo.map (fun file => { Name := file.name, IsDir := file.isDir }) }

/-! ## Request pipeline (`makeHandler`) -/

/-- The configuration the handler reads (Go globals `index`, `noList`). -/
structure Config where
  index : List Char
  noList : Bool

/-- An inbound request: the URL path and the `Accept` header value. -/
structure Request where
  urlPath : List Char
  accept : List Char

/-- The observable response the handler produces. `empty` is the case in
which the handler returns without writing anything (serve.go:137-139):
`net/http` then sends a response with an empty body and default status 200,
not a 404. -/
inductive Response where
  | invalidPath
  | file (path : List Char)
  | fallback
  | listing (dirLists : List dirList)
  | notFound
  | empty
deriving DecidableEq, Repr

/-- The handler from `makeHandler` in serve.go: validate, try files, check
`Accept` for `text/html`, try the configured fallback, try directory
listings unless disabled, else `http.NotFound`. -/
def makeHandler (cfg : Config) (fsx : FS) (dirs : List (List Char)) (r : Request) : Response :=
  if validRequest r.urlPath = false then Response.invalidPath
  else
    match tryFiles fsx dirs r.urlPath with
    | some filePath => Response.file filePath
    | none =>
      if goContains r.accept ("text/html".data) = false then Response.empty
      else if 0 < cfg.index.length ∧ staticIndex fsx cfg.index = true then Response.fallback
      else if cfg.noList = false then
        match tryDirs fsx dirs r.urlPath with
        | some dirLists => Response.listing dirLists
        | none => Response.notFound
      else Response.notFound

/-! ## Listing renderer (per-entry fragment)

The renderer is `html/template` executing the template constant `html`
(serve.go:50-57). The template engine is an external collaborator (spec §1);
its contextual auto-escaping of `{{.Name}}` is modelled from the documented
behaviour of `template.HTMLEscape`: the characters `<`, `>`, `&`, `'`, `"`
are replaced by entities. (In the unquoted `href` attribute context the
engine escapes at least as much; the model uses the text-context escaper
for both interpolation sites.) -/

/-- One character of `template.HTMLEscape`. -/
def escapeChar (c : Char) : List Char :=
  if c = '&' then "&amp;".data
  else if c = '\'' then "&#39;".data
  else if c = '<' then "&lt;".data
  else if c = '>' then "&gt;".data
  else if c = '"' then "&#34;".data
  else [c]

/-- `template.HTMLEscape` over a name. -/
def htmlEscape : List Char → List Char
  | [] => []
  | c :: s => escapeChar c ++ htmlEscape s

/-- The rendered fragment for one entry, following the template line
`<a class="entry{{if .IsDir}} dir{{end}}" href={{.Name}}>{{.Name}}{{if .IsDir}}/{{end}}</a>`
with both `{{.Name}}` interpolations auto-escaped. -/
def renderEntryHtml (e : entry) : List Char :=
  "<a class=\"entry".data ++ (if e.IsDir then " dir".data else [])
    ++ "\" href=".data ++ htmlEscape e.Name ++ ">".data
    ++ htmlEscape e.Name ++ (if e.IsDir then "/".data else []) ++ "</a>".data

/-! ## Test fixtures

Concrete filesystems used by the concrete parts of the claims. -/

/-- The interleaved candidate list of the file pass: per root, the joined
exact path followed by that path with an appended `index.html` segment,
before advancing to the next root. -/
def fileCandidates (dirs : List (List Char)) (urlPath : List Char) : List (List Char) :=
  dirs.flatMap fun dir =>
    [filepathJoin dir urlPath, filepathJoin (filepathJoin dir urlPath) ("index.html".data)]

/-- A filesystem where roots `A` and `B` both hold a regular file
`foo.txt`. -/
def fsAB : FS where
  stat p :=
    if p = "A/foo.txt".data ∨ p = "B/foo.txt".data then
      some { name := "foo.txt".data, isDir := false }
    else none
  openOk p := (p == "A/foo.txt".data) || (p == "B/foo.txt".data)
  readdir _ := none

/-- A filesystem where root `A` holds a regular file at `sub` and root `B`
holds a directory at `sub` containing one file `x.txt`. -/
def fsC5 : FS where
  stat p :=
    if p = "A/sub".data then some { name := "sub".data, isDir := false }
    else if p = "B/sub".data then some { name := "sub".data, isDir := true }
    else none
  openOk p := p == "A/sub".data
  readdir p :=
    if p = "B/sub".data then some [{ name := "x.txt".data, isDir := false }] else none

/-- A filesystem whose root `A` enumerates, in raw filesystem order, the
entries `b.txt` then `a.txt`. -/
def fsC4 : FS where
  stat _ := none
  openOk _ := false
  readdir p :=
    if p = "A".data then
      some [{ name := "b.txt".data, isDir := false }, { name := "a.txt".data, isDir := false }]
    else none

/-- The empty filesystem: every operation fails. -/
def fsEmpty : FS where
  stat _ := none
  openOk _ := false
  readdir _ := none

/-- A filesystem holding only the fallback resource `idx.html`. -/
def fsIdx : FS where
  stat p := if p = "idx.html".data then some { name := "idx.html".data, isDir := false } else none
  openOk p := p == "idx.html".data
  readdir _ := none

/-! ## Substring helper lemmas -/

/-- A prefix is a substring. -/
theorem sub_of_pre {l m : List Char} (h : l <+: m) : l <:+: m := by
  obtain ⟨t, ht⟩ := h
  exact ⟨[], t, by simpa using ht⟩

/-- A substring of the tail is a substring of the whole list. -/
theorem sub_cons {l : List Char} {c : Char} {m : List Char} (h : l <:+: m) : l <:+: c :: m := by
  obtain ⟨s, t, hst⟩ := h
  exact ⟨c :: s, t, by simp [hst]⟩

/-- A substring survives prepending on the left. -/
theorem sub_append_left {l m pre : List Char} (h : l <:+: m) : l <:+: pre ++ m := by
  obtain ⟨s, t, hst⟩ := h
  exact ⟨pre ++ s, t, by simp [hst]⟩

/-- A substring of `c :: m` is a prefix of it or a substring of `m`. -/
theorem sub_cons_cases {l : List Char} {c : Char} {m : List Char} (h : l <:+: c :: m) :
    l <+: c :: m ∨ l <:+: m := by
  obtain ⟨s, t, hst⟩ := h
  cases s with
  | nil => exact Or.inl ⟨t, by simpa using hst⟩
  | cons a s' =>
    simp only [List.cons_append] at hst
    injection hst with h1 h2
    exact Or.inr ⟨s', t, h2⟩

/-- Every field produced by `fieldsFuncAux` is a contiguous substring of the
pending accumulator followed by the remaining input. -/
theorem mem_fieldsFuncAux_sub (f : Char → Bool) :
    ∀ (s acc t : List Char), t ∈ fieldsFuncAux f acc s → t <:+: acc.reverse ++ s := by
  intro s
  induction s with
  | nil =>
    intro acc t ht
    simp only [fieldsFuncAux] at ht
    split at ht
    · simp at ht
    · simp at ht
      subst ht
      exact ⟨[], [], by simp⟩
  | cons c cs ih =>
    intro acc t ht
    simp only [fieldsFuncAux] at ht
    by_cases hc : f c
    · rw [if_pos hc] at ht
      by_cases hacc : acc = []
      · rw [if_pos hacc] at ht
        subst hacc
        have h2 := ih [] t ht
        simp only [List.reverse_nil, List.nil_append] at h2 ⊢
        exact sub_cons h2
      · rw [if_neg hacc] at ht
        rcases List.mem_cons.mp ht with h1 | h2
        · subst h1
          exact ⟨[], c :: cs, by simp⟩
        · have h3 := ih [] t h2
          simp only [List.reverse_nil, List.nil_append] at h3
          exact sub_append_left (sub_cons h3)
    · rw [if_neg hc] at ht
      have h3 := ih (c :: acc) t ht
      simpa [List.append_assoc] using h3

/-- Every field of `strings.FieldsFunc` is a contiguous substring of the
input string. -/
theorem mem_fieldsFunc_sub (f : Char → Bool) (s t : List Char) (h : t ∈ fieldsFunc f s) :
    t <:+: s := by
  have h1 := mem_fieldsFuncAux_sub f s [] t h
  simpa using h1

/-- The loop of `validRequest` returns `false` exactly when some field is
the literal `..` token. -/
theorem scanFields_eq_false_iff (l : List (List Char)) :
    scanFields l = false ↔ "..".data ∈ l := by
  induction l with
  | nil => simp [scanFields]
  | cons field rest ih =>
    by_cases h : field = "..".data
    · simp [scanFields, h]
    · simp [scanFields, h, ih]
      intro heq
      exact absurd heq.symm h

/-- `strings.Contains` agrees with substring occurrence. -/
theorem goContains_iff (s sub : List Char) : goContains s sub = true ↔ sub <:+: s := by
  induction s with
  | nil =>
    constructor
    · intro h
      rw [goContains] at h
      by_cases hp : sub.isPrefixOf ([] : List Char)
      · exact sub_of_pre ( List.isPrefixOf_iff_prefix.mp hp)
      · simp [hp] at h
    · intro h
      obtain ⟨u, v, huv⟩ := h
      have h2 : sub = [] := by cases u <;> simp_all
      subst h2
      rfl
  | cons c rest ih =>
    constructor
    · intro h
      rw [goContains] at h
      by_cases hp : sub.isPrefixOf (c :: rest)
      · exact sub_of_pre ( List.isPrefixOf_iff_prefix.mp hp)
      · simp [hp] at h
        exact sub_cons (ih.mp h)
    · intro h
      rw [goContains]
      by_cases hp : sub.isPrefixOf (c :: rest)
      · simp [hp]
      · simp only [hp, Bool.false_eq_true, if_false]
        rcases sub_cons_cases h with h1 | h2
        · exact absurd ( List.isPrefixOf_iff_prefix.mpr h1) hp
        · exact ih.mpr h2

/-- C2: `validRequest` rejects a path if and only if, after splitting the
path on forward- and back-slash separators, some field equals exactly `..`;
consequently every path in which `..` occurs only inside a longer token is
accepted. -/
theorem validRequest_false_iff_dotdot_field (path : List Char) :
    validRequest path = false ↔ "..".data ∈ fieldsFunc isSlashRune path := by
  cases hgc : goContains path ("..".data) with
  | true =>
    rw [validRequest, hgc]
    simpa using scanFields_eq_false_iff (fieldsFunc isSlashRune path)
  | false =>
    rw [validRequest, hgc]
    simp only [Bool.not_false, if_true]
    constructor
    · intro h
      exact Bool.noConfusion h
    · intro hmem
      have h1 := (goContains_iff path ("..".data)).mpr
        (mem_fieldsFunc_sub isSlashRune path _ hmem)
      rw [hgc] at h1
      exact Bool.noConfusion h1

/-- C10: the substring fast path of `validRequest` (accept immediately when
the path does not contain `..` at all, scan the tokens only otherwise) is
equivalent to unconditionally scanning all slash-separated tokens. -/
theorem validRequest_eq_plain (path : List Char) :
    validRequest path = validRequestPlain path := by
  rw [validRequest, validRequestPlain]
  cases hgc : goContains path ("..".data) with
  | true => simp
  | false =>
    simp only [Bool.not_false, if_true]
    cases hs : scanFields (fieldsFunc isSlashRune path) with
    | true => rfl
    | false =>
      have hmem := (scanFields_eq_false_iff _).mp hs
      have h1 := (goContains_iff path ("..".data)).mpr
        (mem_fieldsFunc_sub isSlashRune path _ hmem)
      rw [hgc] at h1
      exact Bool.noConfusion h1

/-! ## File pass: first-match order -/

/-- C1: the file pass is exactly the first-match search over the per-root
interleaved candidate list (bare joined path, then appended `index.html`,
per root in order); with roots `[A, B]` both holding `foo.txt`, requesting
`/foo.txt` serves `A`'s copy. -/
theorem tryFiles_first_match :
    (∀ (fsx : FS) (dirs : List (List Char)) (urlPath : List Char),
      tryFiles fsx dirs urlPath =
        List.find? (fun p => tryFile fsx p) (fileCandidates dirs urlPath)) ∧
    tryFiles fsAB ["A".data, "B".data] "/foo.txt".data = some ("A/foo.txt".data) := by
  refine ⟨?_, by decide⟩
  intro fsx dirs urlPath
  induction dirs with
  | nil => rfl
  | cons dir rest ih =>
    simp only [tryFiles, fileCandidates, List.flatMap_cons, List.cons_append, List.nil_append]
    cases h1 : tryFile fsx (filepathJoin dir urlPath) with
    | true => simp [List.find?, h1]
    | false =>
      cases h2 : tryFile fsx (filepathJoin (filepathJoin dir urlPath) ("index.html".data)) with
      | true => simp [List.find?, h1, h2]
      | false =>
        simp only [List.find?, h1, h2, Bool.false_eq_true, if_false]
        simpa [fileCandidates] using ih

/-! ## File pass: directories are never matched -/

/-- A served candidate satisfies `tryFile`. -/
theorem tryFiles_tryFile {fsx : FS} {dirs : List (List Char)} {urlPath p : List Char}
    (h : tryFiles fsx dirs urlPath = some p) : tryFile fsx p = true := by
  induction dirs with
  | nil => exact Option.noConfusion h
  | cons dir rest ih =>
    simp only [tryFiles] at h
    split at h
    · next h1 =>
      cases h
      exact h1
    · split at h
      · next h2 =>
        cases h
        exact h2
      · exact ih h

/-- A path accepted by `tryFile` stats successfully as a non-directory. -/
theorem tryFile_stat_file {fsx : FS} {p : List Char} (h : tryFile fsx p = true) :
    ∃ info, fsx.stat p = some info ∧ info.isDir = false := by
  unfold tryFile at h
  cases hstat : fsx.stat p with
  | none =>
    simp only [hstat] at h
    exact Bool.noConfusion h
  | some info =>
    simp only [hstat] at h
    by_cases hd : info.isDir = true
    · rw [if_pos hd] at h
      exact Bool.noConfusion h
    · exact ⟨info, rfl, by simpa using hd⟩

/-- C5: whatever the file pass serves stats as a non-directory — it never
matches a path that stats as a directory. With roots `[A, B]`, only `A`
holding a regular file at `/sub` and only `B` holding a directory there,
the file pass serves `A`'s file (not any directory) and the listing pass
still enumerates `B/sub`. -/
theorem tryFiles_never_dir :
    (∀ (fsx : FS) (dirs : List (List Char)) (urlPath served : List Char),
      tryFiles fsx dirs urlPath = some served →
        ∃ info, fsx.stat served = some info ∧ info.isDir = false) ∧
    tryFiles fsC5 ["A".data, "B".data] "/sub".data = some ("A/sub".data) ∧
    tryDirs fsC5 ["A".data, "B".data] "/sub".data =
      some [{ LocalPath := "B".data, RequestPath := "/sub".data,
              Entries := [{ Name := "..".data, IsDir := true },
                          { Name := "x.txt".data, IsDir := false }] }] := by
  refine ⟨?_, by decide, by decide⟩
  intro fsx dirs urlPath served h
  exact tryFile_stat_file (tryFiles_tryFile h)

/-- C5 witness: in the two-root scenario the served path `A/sub` stats as a
regular file. -/
theorem tryFiles_never_dir_witness :
    ∃ info, fsC5.stat ("A/sub".data) = some info ∧ info.isDir = false :=
  tryFiles_never_dir.1 fsC5 ["A".data, "B".data] "/sub".data ("A/sub".data) (by decide)

/-! ## Listing pass -/

/-- The `tryDirs` loop appends exactly the listings of the successful roots,
in root order, to its accumulator, and its flag records whether any root
succeeded. -/
theorem tryDirsLoop_eq (fsx : FS) (urlPath : List Char) :
    ∀ (dirs : List (List Char)) (acc : List dirList) (found : Bool),
      tryDirsLoop fsx urlPath dirs acc found =
        (acc ++ dirs.filterMap (listingOf fsx urlPath),
         found || !(dirs.filterMap (listingOf fsx urlPath)).isEmpty) := by
  intro dirs
  induction dirs with
  | nil => intro acc found; simp [tryDirsLoop]
  | cons dir rest ih =>
    intro acc found
    cases hrd : ioutilReadDir fsx (filepathJoin dir urlPath) with
    | none =>
      have hl : listingOf fsx urlPath dir = none := by simp [listingOf, hrd]
      simp only [tryDirsLoop, hrd, List.filterMap_cons, hl]
      exact ih acc found
    | some dirInfo =>
      have hl : listingOf fsx urlPath dir =
          some { LocalPath := dir, RequestPath := urlPath,
                 Entries := { Name := "..".data, IsDir := true } ::
                   dirInfo.map (fun file => { Name := file.name, IsDir := file.isDir }) } := by
        simp [listingOf, hrd]
      simp only [tryDirsLoop, hrd, List.filterMap_cons, hl]
      rw [ih]
      simp [List.append_assoc]

/-- C6: the listing pass silently skips every root that fails to enumerate,
accumulates one listing per root that succeeds, preserving root-list order,
includes all of them side by side, and contributes nothing exactly when no
root succeeds. -/
theorem tryDirs_eq_filterMap (fsx : FS) (dirs : List (List Char)) (urlPath : List Char) :
    tryDirs fsx dirs urlPath =
      (if (dirs.filterMap (listingOf fsx urlPath)).isEmpty then none
       else some (dirs.filterMap (listingOf fsx urlPath))) := by
  unfold tryDirs
  rw [tryDirsLoop_eq]
  cases hF : (dirs.filterMap (listingOf fsx urlPath)).isEmpty <;> simp [hF]

/-- C4 counterexample: a directory enumerated in raw order `[b.txt, a.txt]`
renders as `[.., a.txt, b.txt]` — `ioutil.ReadDir` sorts entries by
filename — not as the claimed raw order `[.., b.txt, a.txt]`. -/
theorem tryDirs_resorts_counterexample :
    tryDirs fsC4 ["A".data] "/".data =
      some [{ LocalPath := "A".data, RequestPath := "/".data,
              Entries := [{ Name := "..".data, IsDir := true },
                          { Name := "a.txt".data, IsDir := false },
                          { Name := "b.txt".data, IsDir := false }] }] ∧
    ¬ tryDirs fsC4 ["A".data] "/".data =
        some [{ LocalPath := "A".data, RequestPath := "/".data,
                Entries := [{ Name := "..".data, IsDir := true },
                            { Name := "b.txt".data, IsDir := false },
                            { Name := "a.txt".data, IsDir := false }] }] := by
  decide

/-- C4 amended: in every rendered listing the synthetic parent entry
`(.., isDirectory := true)` is the first entry — even when the directory is
otherwise empty — and the remaining entries are the enumerated entries
sorted by filename (as `ioutil.ReadDir` returns them), not the raw
filesystem enumeration order. -/
theorem tryDirs_parent_first_sorted (fsx : FS) (dirs : List (List Char))
    (urlPath : List Char) (ls : List dirList) (l : dirList)
    (hls : tryDirs fsx dirs urlPath = some ls) (hl : l ∈ ls) :
    ∃ raw, fsx.readdir (filepathJoin l.LocalPath urlPath) = some raw ∧
      l.Entries = { Name := "..".data, IsDir := true } ::
        (sortByName raw).map (fun file => { Name := file.name, IsDir := file.isDir }) := by
  unfold tryDirs at hls
  rw [tryDirsLoop_eq] at hls
  cases hF : (dirs.filterMap (listingOf fsx urlPath)).isEmpty with
  | true => rw [hF] at hls; simp at hls
  | false =>
    rw [hF] at hls
    simp only [Bool.not_false, Bool.or_true, List.nil_append] at hls
    injection hls with hls'
    subst hls'
    rw [List.mem_filterMap] at hl
    obtain ⟨dir, -, hdir⟩ := hl
    unfold listingOf at hdir
    cases hrd : fsx.readdir (filepathJoin dir urlPath) with
    | none => simp [ioutilReadDir, hrd] at hdir
    | some raw =>
      simp only [ioutilReadDir, hrd, Option.map_some'] at hdir
      injection hdir with hdir'
      subst hdir'
      exact ⟨raw, hrd, rfl⟩

/-- C4 witness: for the raw enumeration `[b.txt, a.txt]` of root `A`, the
rendered entry list is the parent entry followed by the sort of the raw
entries. -/
theorem tryDirs_parent_first_sorted_witness :
    ∃ raw, fsC4.readdir (filepathJoin ("A".data) ("/".data)) = some raw ∧
      ({ LocalPath := "A".data, RequestPath := "/".data,
         Entries := [{ Name := "..".data, IsDir := true },
                     { Name := "a.txt".data, IsDir := false },
                     { Name := "b.txt".data, IsDir := false }] } : dirList).Entries =
        { Name := "..".data, IsDir := true } ::
          (sortByName raw).map (fun file => { Name := file.name, IsDir := file.isDir }) :=
  tryDirs_parent_first_sorted fsC4 ["A".data] "/".data
    [{ LocalPath := "A".data, RequestPath := "/".data,
       Entries := [{ Name := "..".data, IsDir := true },
                   { Name := "a.txt".data, IsDir := false },
                   { Name := "b.txt".data, IsDir := false }] }]
    { LocalPath := "A".data, RequestPath := "/".data,
      Entries := [{ Name := "..".data, IsDir := true },
                  { Name := "a.txt".data, IsDir := false },
                  { Name := "b.txt".data, IsDir := false }] }
    (by decide) (by decide)

/-! ## Handler pipeline claims -/

/-- C3 counterexample: with no matching file and an `Accept` header that
lacks `text/html`, the handler returns without writing anything
(`Response.empty`; `net/http` then sends an empty body with default status
200), not `Response.notFound`. -/
theorem no_markup_not_404_counterexample :
    makeHandler { index := [], noList := false } fsEmpty ["A".data]
        { urlPath := "/x".data, accept := [] } = Response.empty ∧
    Response.empty ≠ Response.notFound := by
  decide

/-- C3 amended: when the file pass finds nothing and the `Accept` header
does not contain `text/html`, resolution stops — no fallback or listing is
attempted under any configuration — and the handler writes nothing: the
response is the empty-bodied `net/http` default (status 200), with no
markup body but also no 404. -/
theorem no_markup_stops_empty (cfg : Config) (fsx : FS) (dirs : List (List Char)) (r : Request)
    (hv : validRequest r.urlPath = true)
    (hf : tryFiles fsx dirs r.urlPath = none)
    (ha : goContains r.accept ("text/html".data) = false) :
    makeHandler cfg fsx dirs r = Response.empty := by
  unfold makeHandler
  rw [hv, hf, ha]
  simp

/-- C3 witness: a request for a missing path with `Accept: text/plain`
yields the empty response even with a fallback configured and listings
enabled. -/
theorem no_markup_stops_empty_witness :
    makeHandler { index := "idx.html".data, noList := false } fsEmpty ["A".data]
        { urlPath := "/x".data, accept := "text/plain".data } = Response.empty :=
  no_markup_stops_empty { index := "idx.html".data, noList := false } fsEmpty ["A".data]
    { urlPath := "/x".data, accept := "text/plain".data } (by decide) (by decide) (by decide)

/-- C7: every request that passes validation, matches no file in any root,
accepts `text/html`, and has a non-empty configured fallback path that
opens and stats successfully, is answered with the fallback resource —
whatever the root set contains. -/
theorem fallback_served (cfg : Config) (fsx : FS) (dirs : List (List Char)) (r : Request)
    (hv : validRequest r.urlPath = true)
    (hf : tryFiles fsx dirs r.urlPath = none)
    (ha : goContains r.accept ("text/html".data) = true)
    (hi : cfg.index ≠ [])
    (hs : staticIndex fsx cfg.index = true) :
    makeHandler cfg fsx dirs r = Response.fallback := by
  unfold makeHandler
  rw [hv, hf, ha]
  have hlen : 0 < cfg.index.length := List.length_pos.mpr hi
  simp [hlen, hs]

/-- C7 witness: with fallback `idx.html` configured and an empty root, a
`text/html` request for `/anything` is served the fallback. -/
theorem fallback_served_witness :
    makeHandler { index := "idx.html".data, noList := false } fsIdx ["A".data]
        { urlPath := "/anything".data, accept := "text/html".data } = Response.fallback :=
  fallback_served { index := "idx.html".data, noList := false } fsIdx ["A".data]
    { urlPath := "/anything".data, accept := "text/html".data }
    (by decide) (by decide) (by decide) (by decide) (by decide)

/-- C8: a path that fails traversal validation is answered with the 400
response (`invalidPath`), and the response does not depend on the
filesystem in any way — no stat, open, or enumeration can influence it. -/
theorem invalid_path_400_no_fs (cfg : Config) (fs1 fs2 : FS) (dirs : List (List Char))
    (r : Request) (hv : validRequest r.urlPath = false) :
    makeHandler cfg fs1 dirs r = Response.invalidPath ∧
    makeHandler cfg fs1 dirs r = makeHandler cfg fs2 dirs r := by
  constructor
  · unfold makeHandler
    rw [hv]
    simp
  · unfold makeHandler
    rw [hv]
    simp

/-- C8 witness: the traversal path `/../x` is rejected with 400 on two
different filesystems, identically. -/
theorem invalid_path_400_no_fs_witness :
    makeHandler { index := [], noList := false } fsEmpty ["A".data]
        { urlPath := "/../x".data, accept := [] } = Response.invalidPath ∧
    makeHandler { index := [], noList := false } fsEmpty ["A".data]
        { urlPath := "/../x".data, accept := [] } =
      makeHandler { index := [], noList := false } fsIdx ["A".data]
        { urlPath := "/../x".data, accept := [] } :=
  invalid_path_400_no_fs { index := [], noList := false } fsEmpty fsIdx ["A".data]
    { urlPath := "/../x".data, accept := [] } (by decide)

/-! ## Renderer escaping -/

/-- The escaper never emits an angle bracket for a single character. -/
theorem escapeChar_no_angle (c : Char) :
    (escapeChar c).count '<' = 0 ∧ (escapeChar c).count '>' = 0 := by
  unfold escapeChar
  by_cases h1 : c = '&'
  · rw [if_pos h1]; decide
  rw [if_neg h1]
  by_cases h2 : c = '\''
  · rw [if_pos h2]; decide
  rw [if_neg h2]
  by_cases h3 : c = '<'
  · rw [if_pos h3]; decide
  rw [if_neg h3]
  by_cases h4 : c = '>'
  · rw [if_pos h4]; decide
  rw [if_neg h4]
  by_cases h5 : c = '"'
  · rw [if_pos h5]; decide
  rw [if_neg h5]
  refine ⟨?_, ?_⟩
  · rw [List.count_eq_zero]
    intro hmem
    rw [List.mem_singleton] at hmem
    exact h3 hmem.symm
  · rw [List.count_eq_zero]
    intro hmem
    rw [List.mem_singleton] at hmem
    exact h4 hmem.symm

/-- The escaped form of a name contains no angle bracket at all. -/
theorem htmlEscape_no_angle (s : List Char) :
    (htmlEscape s).count '<' = 0 ∧ (htmlEscape s).count '>' = 0 := by
  induction s with
  | nil => simp [htmlEscape]
  | cons c rest ih =>
    simp only [htmlEscape, List.count_append]
    exact ⟨by rw [(escapeChar_no_angle c).1, ih.1], by rw [(escapeChar_no_angle c).2, ih.2]⟩

/-- C9: entry names cannot inject markup: the rendered fragment for any
entry contains exactly the template's own two `<` and two `>` characters,
whatever the name; concretely an entry named `<script>.txt` renders with
the escaped `&lt;script&gt;.txt` and the raw `<script>` never occurs in its
fragment. -/
theorem renderEntry_escapes :
    (∀ e : entry,
      (renderEntryHtml e).count '<' = 2 ∧ (renderEntryHtml e).count '>' = 2) ∧
    ("&lt;script&gt;.txt".data <:+:
      renderEntryHtml { Name := "<script>.txt".data, IsDir := false }) ∧
    ¬ ("<script>".data <:+:
      renderEntryHtml { Name := "<script>.txt".data, IsDir := false }) := by
  refine ⟨?_, by decide, by decide⟩
  rintro ⟨nm, d⟩
  obtain ⟨h1, h2⟩ := htmlEscape_no_angle nm
  cases d with
  | false =>
    have hr : renderEntryHtml { Name := nm, IsDir := false } =
        "<a class=\"entry".data ++ ([] : List Char) ++ "\" href=".data ++ htmlEscape nm
          ++ ">".data ++ htmlEscape nm ++ ([] : List Char) ++ "</a>".data := rfl
    rw [hr]
    simp only [List.count_append, h1, h2]
    decide
  | true =>
    have hr : renderEntryHtml { Name := nm, IsDir := true } =
        "<a class=\"entry".data ++ " dir".data ++ "\" href=".data ++ htmlEscape nm
          ++ ">".data ++ htmlEscape nm ++ "/".data ++ "</a>".data := rfl
    rw [hr]
    simp only [List.count_append, h1, h2]
    decide
